import Mathlib

/-!
Verification of the Refine edit-merge component and the QuotaExceeded
grouping helper.

The JavaScript is shallowly embedded: rows of the histogram are JavaScript
objects, modelled as association lists over string keys; JavaScript values
occurring in this code (strings, integer-valued numbers, NaN, undefined)
are modelled by the JsVal type; loose equality and addition are modelled
on that type.  Fallible handlers return Option.  JavaScript number
arithmetic in QuotaExceeded is modelled exactly over the rationals.
-/

/-- Model of the JavaScript values that can occur in this code:
strings, integer-valued numbers, NaN and undefined. -/
inductive JsVal where
  | undef : JsVal
  | nan : JsVal
  | str : String → JsVal
  | num : Int → JsVal
deriving DecidableEq, Repr

/-- Model of JavaScript ToNumber on the strings this code meets:
whitespace is trimmed, the empty string is 0, decimal integers parse,
anything else is NaN (returned as none). -/
def toNumber (s : String) : Option Int :=
  let t := s.trim
  if t = "" then some 0 else t.toInt?

/-- Model of JavaScript loose equality (the == operator) restricted to
JsVal: strings compare as strings, numbers as numbers, a number and a
string compare after ToNumber on the string, undefined equals undefined,
and NaN equals nothing. -/
def jsEq : JsVal → JsVal → Bool
  | .str s, .str t => s == t
  | .num m, .num n => m == n
  | .str s, .num n =>
    match toNumber s with
    | some m => m == n
    | none => false
  | .num n, .str s =>
    match toNumber s with
    | some m => m == n
    | none => false
  | .undef, .undef => true
  | _, _ => false

/-- Model of JavaScript ToString on JsVal. -/
def jsToString : JsVal → String
  | .str s => s
  | .num n => toString n
  | .nan => "NaN"
  | .undef => "undefined"

/-- Model of the JavaScript + operator on JsVal: number addition, string
concatenation when either side is a string, and NaN whenever undefined or
NaN meets a number. -/
def jsAdd : JsVal → JsVal → JsVal
  | .num m, .num n => .num (m + n)
  | .str s, v => .str (s ++ jsToString v)
  | v, .str s => .str (jsToString v ++ s)
  | _, _ => .nan

/-- A JavaScript object (a histogram row), modelled as an association
list from string keys to values, in insertion order. -/
abbrev Obj := List (String × JsVal)

/-- Property read r[k]: the value at the first occurrence of key k, or
undefined when the key is absent. -/
def objGet : Obj → String → JsVal
  | [], _ => .undef
  | (k', v) :: rest, k => if k' = k then v else objGet rest k

/-- Property write r[k] = v: updates the value in place when the key is
present, appends the key otherwise (JavaScript insertion order). -/
def objSet : Obj → String → JsVal → Obj
  | [], k, v => [(k, v)]
  | (k', v') :: rest, k, v =>
    if k' = k then (k, v) :: rest else (k', v') :: objSet rest k v

/-- Index of the first list element satisfying p, as in the source's
for-loop with break (fromIdx and toIdx scans); none models index -1. -/
def firstIdxWhere {α : Type} (p : α → Bool) : List α → Option Nat
  | [] => none
  | a :: rest => if p a then some 0 else (firstIdxWhere p rest).map (· + 1)

/-- An edit record as stored in the edit log:
\x7b column, fromVal, toVal, timestamp \x7d. -/
structure Edit where
  column : String
  fromVal : JsVal
  toVal : JsVal
  timestamp : Int
deriving DecidableEq, Repr

/-- The source's row predicate newHist[i][edit.column] == v. -/
def rowMatches (col : String) (v : JsVal) (r : Obj) : Bool :=
  jsEq (objGet r col) v

/-- Refine.applySingleEdit (src/unnamed/part_000 lines 163-197).
The fromIdx scan finds the first row matching edit.fromVal; fromEntry is
Object.assign(\x7b\x7d, newHist[fromIdx]) and splice(fromIdx, 1) removes it.
When no row matches, fromIdx stays -1: newHist[-1] is undefined, so
Object.assign gives the empty object, and splice(-1, 1) removes the LAST
element.  The toIdx scan then finds the first remaining row matching
edit.toVal; if none, a fresh row with edit.toVal and fromEntry.count is
unshifted, otherwise the first matching row is removed, its count is
increased by fromEntry.count, and it is unshifted. -/
def applySingleEdit (hist : List Obj) (edit : Edit) : List Obj :=
  let step1 : Obj × List Obj :=
    match firstIdxWhere (rowMatches edit.column edit.fromVal) hist with
    | some i => (hist.getD i [], hist.eraseIdx i)
    | none => ([], hist.dropLast)
  let fromEntry := step1.1
  let hist1 := step1.2
  match firstIdxWhere (rowMatches edit.column edit.toVal) hist1 with
  | none =>
    objSet (objSet [] edit.column edit.toVal) "count" (objGet fromEntry "count") :: hist1
  | some j =>
    let toEntry := hist1.getD j []
    objSet toEntry "count" (jsAdd (objGet toEntry "count") (objGet fromEntry "count")) ::
      hist1.eraseIdx j

/-- The replay loop of Refine.loadHistogram (lines 147-153): starting
from the fetched rows, each edit of the log is applied in log order, but
only when its column equals the selected column. -/
def loadHistogramEdited (selectedColumn : String) (edits : List Edit) (rows : List Obj) :
    List Obj :=
  edits.foldl (fun h e => if e.column == selectedColumn then applySingleEdit h e else h) rows

/-- The character for decimal digit n. -/
def digitChar (n : Nat) : Char := Char.ofNat (48 + n)

/-- Decimal digits of a natural number, most significant first. -/
def natDigits (n : Nat) : List Char :=
  if _h : n < 10 then [digitChar n]
  else natDigits (n / 10) ++ [digitChar (n % 10)]
termination_by n
decreasing_by exact Nat.div_lt_self (by omega) (by omega)

/-- Decimal notation of an integer, as JSON.stringify prints the
integer-valued numbers of this code (timestamps, counts). -/
def intChars (n : Int) : List Char :=
  if n < 0 then '-' :: natDigits n.natAbs else natDigits n.natAbs

/-- JSON string escaping of one character.  The strings this code meets
need only the quote and backslash escapes; control characters, which
JSON.stringify would escape with \u sequences, are excluded by the
serializability hypotheses below. -/
def escapeChar (c : Char) : List Char :=
  if c = '"' then ['\\', '"'] else if c = '\\' then ['\\', '\\'] else [c]

/-- The escaped body of a JSON string literal. -/
def strBodyChars (s : String) : List Char :=
  (s.data.map escapeChar).flatten

/-- A JSON string literal: quote, escaped body, quote. -/
def quoteChars (s : String) : List Char :=
  '"' :: (strBodyChars s ++ ['"'])

/-- JSON.stringify of one JsVal value: strings are quoted and escaped,
numbers print in decimal, NaN prints as null. -/
def valChars : JsVal → List Char
  | .str s => quoteChars s
  | .num n => intChars n
  | .nan => 'n' :: 'u' :: 'l' :: 'l' :: []
  | .undef => []

/-- One member of a serialized edit object.  JSON.stringify omits object
members whose value is undefined, giving the empty member list. -/
def memberChars (key : String) (v : JsVal) : List (List Char) :=
  if v = .undef then [] else [quoteChars key ++ ':' :: valChars v]

/-- JSON.stringify of one edit record, members in insertion order:
column, fromVal, toVal, timestamp. -/
def editChars (e : Edit) : List Char :=
  Char.ofNat 123 ::
    (List.intercalate [','] (
      [quoteChars "column" ++ ':' :: quoteChars e.column] ++
      memberChars "fromVal" e.fromVal ++
      memberChars "toVal" e.toVal ++
      [quoteChars "timestamp" ++ ':' :: intChars e.timestamp]) ++
      [Char.ofNat 125])

/-- JSON.stringify of the edit log: the serialized array handed to the
saveEdits callback. -/
def editsJson (l : List Edit) : String :=
  String.mk ('[' :: (List.intercalate [','] (l.map editChars) ++ [']']))

/-- Consume an expected literal prefix. -/
def expectLit : List Char → List Char → Option (List Char)
  | [], cs => some cs
  | _ :: _, [] => none
  | c :: lit, c' :: cs => if c = c' then expectLit lit cs else none

/-- Parse the body of a JSON string literal up to the closing quote,
undoing the quote and backslash escapes. -/
def parseStrBody : List Char → Option (List Char × List Char)
  | [] => none
  | c :: cs =>
    if c = '"' then some ([], cs)
    else if c = '\\' then
      match cs with
      | [] => none
      | e :: cs' =>
        if e = '"' ∨ e = '\\' then (parseStrBody cs').map (fun p => (e :: p.1, p.2))
        else none
    else (parseStrBody cs).map (fun p => (c :: p.1, p.2))

/-- Parse a quoted JSON string literal. -/
def parseQuoted : List Char → Option (String × List Char)
  | '"' :: rest => (parseStrBody rest).map (fun p => (String.mk p.1, p.2))
  | _ => none

/-- Numeric value of a decimal digit character. -/
def digitVal (c : Char) : Nat := c.toNat - 48

/-- Split off the leading run of decimal digits. -/
def digitSpan : List Char → List Char × List Char
  | [] => ([], [])
  | c :: cs =>
    if c.isDigit then ((c :: (digitSpan cs).1), (digitSpan cs).2) else ([], c :: cs)

/-- Parse a nonempty run of decimal digits. -/
def parseNatChars (cs : List Char) : Option (Nat × List Char) :=
  match digitSpan cs with
  | (ds, rest) =>
    if ds = [] then none
    else some (ds.foldl (fun acc c => 10 * acc + digitVal c) 0, rest)

/-- Parse a decimal integer with optional leading minus sign. -/
def parseIntChars (cs : List Char) : Option (Int × List Char) :=
  match cs with
  | [] => none
  | c :: cs' =>
    if c = '-' then (parseNatChars cs').map (fun p => (-(p.1 : Int), p.2))
    else (parseNatChars (c :: cs')).map (fun p => ((p.1 : Int), p.2))

/-- Parse one JSON value of the shapes this log holds: a string or an
integer. -/
def parseVal (cs : List Char) : Option (JsVal × List Char) :=
  match cs with
  | [] => none
  | c :: cs' =>
    if c = '"' then (parseQuoted (c :: cs')).map (fun p => (JsVal.str p.1, p.2))
    else (parseIntChars (c :: cs')).map (fun p => (JsVal.num p.1, p.2))

/-- Parse one serialized edit record of the exact member shape the
component writes. -/
def parseOneEdit (cs : List Char) : Option (Edit × List Char) :=
  (expectLit (Char.ofNat 123 :: (quoteChars "column" ++ [':'])) cs).bind fun cs =>
  (parseQuoted cs).bind fun pc =>
  (expectLit (',' :: (quoteChars "fromVal" ++ [':'])) pc.2).bind fun cs =>
  (parseVal cs).bind fun pf =>
  (expectLit (',' :: (quoteChars "toVal" ++ [':'])) pf.2).bind fun cs =>
  (parseVal cs).bind fun pt =>
  (expectLit (',' :: (quoteChars "timestamp" ++ [':'])) pt.2).bind fun cs =>
  (parseIntChars cs).bind fun pts =>
  (expectLit [Char.ofNat 125] pts.2).map fun cs =>
  (⟨pc.1, pf.1, pt.1, pts.1⟩, cs)

/-- Parse a comma-separated sequence of edit records closed by the final
bracket; the fuel bounds the number of records. -/
def parseEditsAux : Nat → List Char → Option (List Edit)
  | 0, _ => none
  | fuel + 1, cs =>
    (parseOneEdit cs).bind fun pe =>
      match pe.2 with
      | [] => none
      | c :: rest' =>
        if c = ']' then (if rest' = [] then some [pe.1] else none)
        else if c = ',' then (parseEditsAux fuel rest').map (fun l => pe.1 :: l)
        else none

/-- Parse a JSON-serialized edit log, the inverse of editsJson on
serializable logs. -/
def parseEdits (s : String) : Option (List Edit) :=
  match s.data with
  | [] => none
  | c :: cs =>
    if c = '[' then
      if cs = [']'] then some [] else parseEditsAux cs.length cs
    else none

/-- A string JSON.stringify serializes without \u escapes: no control
characters. -/
def serializableString (s : String) : Bool :=
  s.data.all (fun c => 32 ≤ c.toNat)

/-- A value the component's serializer round-trips: a control-free
string or an integer-valued number. -/
def serializableVal : JsVal → Bool
  | .str s => serializableString s
  | .num _ => true
  | _ => false

/-- An edit record the component's serializer round-trips. -/
def serializableEdit (e : Edit) : Bool :=
  serializableString e.column && serializableVal e.fromVal && serializableVal e.toVal

/-- The argument of Refine.handleGridRowsUpdated: the updated cell key,
the row data before the change, and the updated values. -/
structure GridUpdate where
  cellKey : String
  fromRowData : Obj
  updated : Obj

/-- Refine.handleGridRowsUpdated (lines 207-226): ignores count-column
updates and unchanged values, otherwise appends one edit record to a copy
of the log and passes its JSON serialization to saveEdits (none models
returning without calling saveEdits). -/
def handleGridRowsUpdated (edits : List Edit) (data : GridUpdate) (now : Int) :
    Option String :=
  if data.cellKey == "count" then none
  else
    let fromVal := objGet data.fromRowData data.cellKey
    let toVal := objGet data.updated data.cellKey
    if jsEq fromVal toVal then none
    else some (editsJson (edits ++ [⟨data.cellKey, fromVal, toVal, now⟩]))

/-- Refine.handleValueChange (lines 228-240): appends one edit record
for the selected column to a copy of the log and passes its JSON
serialization to saveEdits. -/
def handleValueChange (edits : List Edit) (selectedColumn : String)
    (changeFromVal changeToVal : JsVal) (now : Int) : String :=
  editsJson (edits ++ [⟨selectedColumn, changeFromVal, changeToVal, now⟩])

/-- A heap of row objects, for the frame claim: rows live in a store and
the histogram array holds references. -/
abbrev Store := List Obj

/-- Read the row object a reference points to. -/
def deref (σ : Store) (r : Nat) : Obj := σ.getD r []

/-- Allocate a fresh row object, returning the new store and the fresh
reference. -/
def allocObj (σ : Store) (o : Obj) : Store × Nat := (σ ++ [o], σ.length)

/-- Overwrite the row object at an existing reference. -/
def storeWrite (σ : Store) (r : Nat) (o : Obj) : Store := σ.set r o

/-- Second half of the store-passing translation of applySingleEdit,
from the toIdx scan on: in the absent case a fresh row is allocated and
unshifted; in the merge case toEntry is a fresh clone of the matching
row (Object.assign) and the += mutates only that fresh clone. -/
def applySingleEditRefTo (σ : Store) (fromRef : Nat) (hist1 : List Nat) (edit : Edit) :
    Store × List Nat :=
  match firstIdxWhere (fun r => rowMatches edit.column edit.toVal (deref σ r)) hist1 with
  | none =>
    let a2 := allocObj σ (objSet (objSet [] edit.column edit.toVal) "count"
      (objGet (deref σ fromRef) "count"))
    (a2.1, a2.2 :: hist1)
  | some j =>
    let a2 := allocObj σ (deref σ (hist1.getD j 0))
    let merged := objSet (deref a2.1 a2.2) "count"
      (jsAdd (objGet (deref a2.1 a2.2) "count") (objGet (deref a2.1 fromRef) "count"))
    (storeWrite a2.1 a2.2 merged, a2.2 :: hist1.eraseIdx j)

/-- Store-passing translation of applySingleEdit: hist.slice() copies
the array but shares the row references; fromEntry is a fresh clone of
the matched row (or of undefined, the empty object, when no row
matches, in which case splice(-1, 1) drops the last reference). -/
def applySingleEditRef (σ : Store) (hist : List Nat) (edit : Edit) : Store × List Nat :=
  match firstIdxWhere (fun r => rowMatches edit.column edit.fromVal (deref σ r)) hist with
  | some i =>
    let a1 := allocObj σ (deref σ (hist.getD i 0))
    applySingleEditRefTo a1.1 a1.2 (hist.eraseIdx i) edit
  | none =>
    let a1 := allocObj σ []
    applySingleEditRefTo a1.1 a1.2 hist.dropLast edit

/-- A workflow as QuotaExceeded.js reads it: numeric id and name. -/
structure Workflow where
  id : Int
  name : String
deriving DecidableEq, Repr

/-- A workflow step as groupAutofetches reads it: numeric id and fetch
interval in seconds.  JavaScript numbers are modelled exactly over the
rationals. -/
structure WfModule where
  id : Int
  fetchInterval : ℚ
deriving DecidableEq, Repr

/-- One autofetch entry of the QuotaExceeded prop list. -/
structure Autofetch where
  workflow : Workflow
  wfModule : WfModule
deriving DecidableEq, Repr

/-- One group of groupAutofetches: the workflow, the accumulated fetches
per day, and the autofetches of that workflow. -/
structure AFGroup where
  workflow : Workflow
  nFetchesPerDay : ℚ
  autofetches : List Autofetch
deriving DecidableEq, Repr

/-- The loop body of groupAutofetches: find or create the group keyed by
the autofetch's workflow id, add 86400 / fetchInterval to its
nFetchesPerDay and push the autofetch.  The JavaScript object keyed by
String(workflow.id) is modelled as an association list keyed by the id
(String of distinct numeric ids is injective), in key-creation order as
Object.values enumerates it. -/
def insertAutofetch (groups : List (Int × AFGroup)) (a : Autofetch) : List (Int × AFGroup) :=
  let gid := a.workflow.id
  let withGroup :=
    if groups.any (fun p => p.1 == gid) then groups
    else groups ++ [(gid, ⟨a.workflow, 0, []⟩)]
  withGroup.map (fun p =>
    if p.1 == gid then
      (p.1, { p.2 with
        nFetchesPerDay := p.2.nFetchesPerDay + 86400 / a.wfModule.fetchInterval,
        autofetches := p.2.autofetches ++ [a] })
    else p)

/-- The sort order of the comparator b.nFetchesPerDay - a.nFetchesPerDay
|| a.workflow.name.localeCompare(b.workflow.name): decreasing fetches
per day, ties broken by workflow name (localeCompare modelled as
lexicographic string order). -/
def groupLe (a b : AFGroup) : Prop :=
  b.nFetchesPerDay < a.nFetchesPerDay ∨
    (b.nFetchesPerDay = a.nFetchesPerDay ∧ a.workflow.name ≤ b.workflow.name)

instance : DecidableRel groupLe := fun a b => by
  unfold groupLe
  infer_instance

instance : IsTotal AFGroup groupLe :=
  ⟨fun a b => by
    unfold groupLe
    rcases lt_trichotomy a.nFetchesPerDay b.nFetchesPerDay with h | h | h
    · exact Or.inr (Or.inl h)
    · rcases le_total a.workflow.name b.workflow.name with hn | hn
      · exact Or.inl (Or.inr ⟨h.symm, hn⟩)
      · exact Or.inr (Or.inr ⟨h, hn⟩)
    · exact Or.inl (Or.inl h)⟩

instance : IsTrans AFGroup groupLe :=
  ⟨fun a b c hab hbc => by
    unfold groupLe at *
    rcases hab with h1 | ⟨h1, h1n⟩ <;> rcases hbc with h2 | ⟨h2, h2n⟩
    · exact Or.inl (h2.trans h1)
    · exact Or.inl (h2 ▸ h1)
    · exact Or.inl (h1 ▸ h2)
    · exact Or.inr ⟨h2.trans h1, h1n.trans h2n⟩⟩

/-- groupAutofetches (QuotaExceeded.js lines 7-24): fold the autofetches
into groups keyed by workflow id, then sort Object.values of the groups
with the comparator; Array.prototype.sort with a consistent comparator
is modelled by a sort producing a groupLe-ordered permutation. -/
def groupAutofetches (autofetches : List Autofetch) : List AFGroup :=
  List.insertionSort groupLe ((autofetches.foldl insertAutofetch []).map Prod.snd)

/-- The row's value at column c is a string. -/
def isStrAt (c : String) (r : Obj) : Bool :=
  match objGet r c with
  | .str _ => true
  | _ => false

/-- The row's value at column c is an integer-valued number. -/
def isNumAt (c : String) (r : Obj) : Bool :=
  match objGet r c with
  | .num _ => true
  | _ => false

/-- The numeric count of a row (0 when the count is not a number). -/
def countOf (r : Obj) : Int :=
  match objGet r "count" with
  | .num n => n
  | _ => 0

/-- Total of the count fields over a histogram. -/
def countSum (l : List Obj) : Int :=
  (l.map countOf).sum

/-- The values at column c of a histogram, in row order. -/
def colVals (c : String) (l : List Obj) : List JsVal :=
  l.map (fun r => objGet r c)

/-- The serialized form of the tail of a nonempty edit log: each further
record preceded by a comma, then the closing bracket. -/
def tailChars : List Edit → List Char
  | [] => [']']
  | e :: l => ',' :: (editChars e ++ tailChars l)

/-- Invariant of the grouping loop of groupAutofetches, relative to the
already processed prefix of the autofetch list. -/
def GroupsInv (pre : List Autofetch) (acc : List (Int × AFGroup)) : Prop :=
  (acc.map Prod.fst).Nodup ∧
  (∀ a ∈ pre, ∃ p ∈ acc, p.1 = a.workflow.id) ∧
  (∀ p ∈ acc,
    p.2.workflow.id = p.1 ∧
    p.2.autofetches = pre.filter (fun a => a.workflow.id == p.1) ∧
    p.2.nFetchesPerDay =
      (p.2.autofetches.map (fun a => (86400 : ℚ) / a.wfModule.fetchInterval)).sum ∧
    (∃ a ∈ pre, a.workflow.id = p.1))

/-! ### Basic lemmas about the scans and the object model -/

theorem firstIdxWhere_eq_none_iff {α : Type} (p : α → Bool) (l : List α) :
    firstIdxWhere p l = none ↔ ∀ a ∈ l, p a = false := by
  induction l with
  | nil => simp [firstIdxWhere]
  | cons a rest ih =>
    by_cases h : p a
    · simp [firstIdxWhere, h]
    · simp [firstIdxWhere, h, Option.map_eq_none', ih]

theorem firstIdxWhere_spec {α : Type} (p : α → Bool) (l : List α) (i : Nat) (d : α)
    (h : firstIdxWhere p l = some i) :
    i < l.length ∧ p (l.getD i d) = true ∧ ∀ k, k < i → p (l.getD k d) = false := by
  induction l generalizing i with
  | nil => simp [firstIdxWhere] at h
  | cons a rest ih =>
    by_cases hp : p a
    · simp [firstIdxWhere, hp] at h
      subst h
      exact ⟨Nat.succ_pos _, by simpa using hp, fun k hk => absurd hk (Nat.not_lt_zero k)⟩
    · simp [firstIdxWhere, hp, Option.map_eq_some'] at h
      obtain ⟨j, hj, rfl⟩ := h
      obtain ⟨hl, hg, hf⟩ := ih j hj
      refine ⟨Nat.succ_lt_succ hl, by simpa using hg, ?_⟩
      intro k hk
      match k with
      | 0 => simpa using hp
      | k' + 1 => simpa using hf k' (Nat.lt_of_succ_lt_succ hk)

theorem firstIdxWhere_isSome {α : Type} (p : α → Bool) (l : List α)
    (h : ∃ a ∈ l, p a = true) : ∃ i, firstIdxWhere p l = some i := by
  rcases hi : firstIdxWhere p l with _ | i
  · obtain ⟨a, ha, hpa⟩ := h
    have := (firstIdxWhere_eq_none_iff p l).mp hi a ha
    rw [hpa] at this
    exact absurd this (by simp)
  · exact ⟨i, rfl⟩

theorem objGet_objSet_self (o : Obj) (k : String) (v : JsVal) :
    objGet (objSet o k v) k = v := by
  induction o with
  | nil => simp [objSet, objGet]
  | cons p rest ih =>
    by_cases h : p.1 = k
    · simp [objSet, h, objGet]
    · simp [objSet, h, objGet, ih]

theorem objGet_objSet_ne (o : Obj) (k k' : String) (v : JsVal) (h : k' ≠ k) :
    objGet (objSet o k v) k' = objGet o k' := by
  have hkk : ¬(k = k') := fun hh => h hh.symm
  induction o with
  | nil => simp [objSet, objGet, hkk]
  | cons p rest ih =>
    obtain ⟨pk, pv⟩ := p
    by_cases hk : pk = k
    · subst hk
      simp [objSet, objGet, hkk]
    · by_cases hk' : pk = k'
      · subst hk'
        simp [objSet, objGet, hk]
      · simp [objSet, objGet, hk, hk', ih]

theorem jsEq_str_iff (s t : String) : jsEq (JsVal.str s) (JsVal.str t) = true ↔ s = t := by
  simp [jsEq]

theorem getD_mem' {α : Type} (l : List α) (i : Nat) (d : α) (h : i < l.length) :
    l.getD i d ∈ l := by
  induction l generalizing i with
  | nil => simp at h
  | cons a rest ih =>
    match i with
    | 0 => simp
    | i' + 1 =>
      simp only [List.getD_cons_succ, List.mem_cons]
      exact Or.inr (ih i' (Nat.lt_of_succ_lt_succ h))

theorem mem_eraseIdx_of_ne {α : Type} (l : List α) (i j : Nat) (d : α)
    (hi : i < l.length) (hne : i ≠ j) : l.getD i d ∈ l.eraseIdx j := by
  induction l generalizing i j with
  | nil => simp at hi
  | cons a rest ih =>
    match j with
    | 0 =>
      match i with
      | 0 => exact absurd rfl hne
      | i' + 1 =>
        simp only [List.eraseIdx, List.getD_cons_succ]
        exact getD_mem' rest i' d (Nat.lt_of_succ_lt_succ hi)
    | j' + 1 =>
      match i with
      | 0 => simp [List.eraseIdx]
      | i' + 1 =>
        simp only [List.eraseIdx, List.getD_cons_succ, List.mem_cons]
        exact Or.inr (ih i' j' (Nat.lt_of_succ_lt_succ hi) (fun hh => hne (by omega)))

theorem getD_eraseIdx_of_gt {α : Type} (l : List α) (i j : Nat) (d : α)
    (hij : j < i) (hi : i < l.length) :
    (l.eraseIdx j).getD (i - 1) d = l.getD i d := by
  induction l generalizing i j with
  | nil => simp at hi
  | cons a rest ih =>
    match j, i, hij with
    | 0, i' + 1, _ =>
      simp [List.eraseIdx]
    | j' + 1, i' + 1, hij =>
      have hj' : j' < i' := Nat.lt_of_succ_lt_succ hij
      have hi' : i' < rest.length := Nat.lt_of_succ_lt_succ hi
      match i', hj' with
      | i'' + 1, _ =>
        have h2 := ih (i'' + 1) j' (by omega) hi'
        simp only [Nat.add_sub_cancel] at h2 ⊢
        simp only [List.eraseIdx, List.getD_cons_succ]
        exact h2

theorem map_eraseIdx' {α β : Type} (f : α → β) (l : List α) (i : Nat) :
    (l.eraseIdx i).map f = (l.map f).eraseIdx i := by
  induction l generalizing i with
  | nil => simp
  | cons a rest ih =>
    match i with
    | 0 => simp [List.eraseIdx]
    | i' + 1 => simp [List.eraseIdx, ih]

theorem isStrAt_iff (c : String) (r : Obj) :
    isStrAt c r = true ↔ ∃ s, objGet r c = JsVal.str s := by
  cases h : objGet r c <;> simp [isStrAt, h]

theorem isNumAt_iff (c : String) (r : Obj) :
    isNumAt c r = true ↔ ∃ n, objGet r c = JsVal.num n := by
  cases h : objGet r c <;> simp [isNumAt, h]

theorem rowMatches_str_of_eq (c : String) (t : String) (r : Obj)
    (h : objGet r c = JsVal.str t) : rowMatches c (JsVal.str t) r = true := by
  unfold rowMatches
  rw [h]
  simp [jsEq]

theorem applySingleEdit_merge (hist : List Obj) (e : Edit) (i j : Nat)
    (hf : firstIdxWhere (rowMatches e.column e.fromVal) hist = some i)
    (ht : firstIdxWhere (rowMatches e.column e.toVal) (hist.eraseIdx i) = some j) :
    applySingleEdit hist e =
      objSet ((hist.eraseIdx i).getD j []) "count"
        (jsAdd (objGet ((hist.eraseIdx i).getD j []) "count")
          (objGet (hist.getD i []) "count")) ::
        (hist.eraseIdx i).eraseIdx j := by
  simp [applySingleEdit, hf, ht]

theorem applySingleEdit_insert (hist : List Obj) (e : Edit) (i : Nat)
    (hf : firstIdxWhere (rowMatches e.column e.fromVal) hist = some i)
    (ht : firstIdxWhere (rowMatches e.column e.toVal) (hist.eraseIdx i) = none) :
    applySingleEdit hist e =
      objSet (objSet [] e.column e.toVal) "count" (objGet (hist.getD i []) "count") ::
        hist.eraseIdx i := by
  simp [applySingleEdit, hf, ht]

/-- C1.  For every histogram that contains a row whose value at
edit.column equals fromVal and a distinct row whose value at edit.column
equals toVal, applySingleEdit removes both rows (the first match each)
and inserts at the front a single merged row whose value at edit.column
is toVal and whose count is the sum of the two removed rows' counts; the
result has exactly one row fewer than the input.  Values at edit.column
are strings and counts are numbers, as in the application, and
edit.column is a data column, not the count column. -/
theorem refine_C1 (hist : List Obj) (c f t : String) (ts : Int)
    (hc : c ≠ "count")
    (hstr : ∀ r ∈ hist, isStrAt c r = true)
    (hcnt : ∀ r ∈ hist, isNumAt "count" r = true)
    (hex : ∃ k1 k2, k1 < hist.length ∧ k2 < hist.length ∧ k1 ≠ k2 ∧
      objGet (hist.getD k1 []) c = JsVal.str f ∧ objGet (hist.getD k2 []) c = JsVal.str t) :
    ∃ i0 j0 cf ct,
      firstIdxWhere (rowMatches c (JsVal.str f)) hist = some i0 ∧
      firstIdxWhere (rowMatches c (JsVal.str t)) (hist.eraseIdx i0) = some j0 ∧
      objGet (hist.getD i0 []) "count" = JsVal.num cf ∧
      objGet ((hist.eraseIdx i0).getD j0 []) "count" = JsVal.num ct ∧
      applySingleEdit hist ⟨c, JsVal.str f, JsVal.str t, ts⟩ =
        objSet ((hist.eraseIdx i0).getD j0 []) "count" (JsVal.num (ct + cf)) ::
          (hist.eraseIdx i0).eraseIdx j0 ∧
      objGet (objSet ((hist.eraseIdx i0).getD j0 []) "count" (JsVal.num (ct + cf))) c =
        JsVal.str t ∧
      (applySingleEdit hist ⟨c, JsVal.str f, JsVal.str t, ts⟩).length + 1 = hist.length := by
  obtain ⟨k1, k2, hk1, hk2, hne, hv1, hv2⟩ := hex
  have hfe : ∃ r ∈ hist, rowMatches c (JsVal.str f) r = true :=
    ⟨hist.getD k1 [], getD_mem' hist k1 [] hk1, rowMatches_str_of_eq c f _ hv1⟩
  obtain ⟨i0, hi0⟩ := firstIdxWhere_isSome _ hist hfe
  obtain ⟨hi0len, hi0p, _⟩ := firstIdxWhere_spec _ hist i0 [] hi0
  have hi0v : objGet (hist.getD i0 []) c = JsVal.str f := by
    obtain ⟨s, hs⟩ := (isStrAt_iff c _).mp (hstr _ (getD_mem' hist i0 [] hi0len))
    rw [rowMatches, hs] at hi0p
    rw [hs, (jsEq_str_iff s f).mp hi0p]
  have hkt : ∃ k, k < hist.length ∧ k ≠ i0 ∧ objGet (hist.getD k []) c = JsVal.str t := by
    by_cases hft : t = f
    · subst hft
      by_cases h1 : k1 = i0
      · exact ⟨k2, hk2, fun hh => hne (h1 ▸ hh ▸ rfl), hv2⟩
      · exact ⟨k1, hk1, h1, hv1⟩
    · refine ⟨k2, hk2, ?_, hv2⟩
      intro hh
      rw [hh, hi0v] at hv2
      exact hft (by injection hv2 with h; exact h.symm)
  obtain ⟨k, hk, hkne, hkv⟩ := hkt
  have hte : ∃ r ∈ hist.eraseIdx i0, rowMatches c (JsVal.str t) r = true :=
    ⟨hist.getD k [], mem_eraseIdx_of_ne hist k i0 [] hk hkne,
      rowMatches_str_of_eq c t _ hkv⟩
  obtain ⟨j0, hj0⟩ := firstIdxWhere_isSome _ _ hte
  obtain ⟨hj0len, hj0p, _⟩ := firstIdxWhere_spec _ _ j0 [] hj0
  have htmemh : (hist.eraseIdx i0).getD j0 [] ∈ hist :=
    List.Sublist.mem (getD_mem' _ j0 [] hj0len) (List.eraseIdx_sublist hist i0)
  obtain ⟨cf, hcf⟩ := (isNumAt_iff "count" _).mp (hcnt _ (getD_mem' hist i0 [] hi0len))
  obtain ⟨ct, hct⟩ := (isNumAt_iff "count" _).mp (hcnt _ htmemh)
  have htv : objGet ((hist.eraseIdx i0).getD j0 []) c = JsVal.str t := by
    obtain ⟨s, hs⟩ := (isStrAt_iff c _).mp (hstr _ htmemh)
    rw [rowMatches, hs] at hj0p
    rw [hs, (jsEq_str_iff s t).mp hj0p]
  have heq := applySingleEdit_merge hist ⟨c, JsVal.str f, JsVal.str t, ts⟩ i0 j0 hi0 hj0
  rw [hcf, hct] at heq
  refine ⟨i0, j0, cf, ct, hi0, hj0, hcf, hct, ?_, ?_, ?_⟩
  · rw [heq]
    simp [jsAdd]
  · rw [objGet_objSet_ne _ _ _ _ hc]
    exact htv
  · rw [heq]
    have hl1 : (hist.eraseIdx i0).length = hist.length - 1 := by
      rw [List.length_eraseIdx]
      simp [hi0len]
    have hl2 : ((hist.eraseIdx i0).eraseIdx j0).length = (hist.eraseIdx i0).length - 1 := by
      rw [List.length_eraseIdx]
      simp [hj0len]
    have : 0 < hist.length := Nat.lt_of_le_of_lt (Nat.zero_le i0) hi0len
    simp only [List.length_cons, hl2, hl1]
    omega

/-- Witness for C1 at a concrete two-row histogram merging x into z. -/
theorem refine_C1_witness :
    ∃ i0 j0 cf ct,
      firstIdxWhere (rowMatches "a" (JsVal.str "x"))
        [[("a", JsVal.str "x"), ("count", JsVal.num 5)],
         [("a", JsVal.str "z"), ("count", JsVal.num 2)]] = some i0 ∧
      firstIdxWhere (rowMatches "a" (JsVal.str "z"))
        (([[("a", JsVal.str "x"), ("count", JsVal.num 5)],
           [("a", JsVal.str "z"), ("count", JsVal.num 2)]] : List Obj).eraseIdx i0) = some j0 ∧
      objGet (([[("a", JsVal.str "x"), ("count", JsVal.num 5)],
                [("a", JsVal.str "z"), ("count", JsVal.num 2)]] : List Obj).getD i0 [])
        "count" = JsVal.num cf ∧
      objGet ((([[("a", JsVal.str "x"), ("count", JsVal.num 5)],
                 [("a", JsVal.str "z"), ("count", JsVal.num 2)]] : List Obj).eraseIdx
          i0).getD j0 []) "count" = JsVal.num ct ∧
      applySingleEdit
          [[("a", JsVal.str "x"), ("count", JsVal.num 5)],
           [("a", JsVal.str "z"), ("count", JsVal.num 2)]]
          ⟨"a", JsVal.str "x", JsVal.str "z", 0⟩ =
        objSet ((([[("a", JsVal.str "x"), ("count", JsVal.num 5)],
                   [("a", JsVal.str "z"), ("count", JsVal.num 2)]] : List Obj).eraseIdx
            i0).getD j0 []) "count" (JsVal.num (ct + cf)) ::
          (([[("a", JsVal.str "x"), ("count", JsVal.num 5)],
             [("a", JsVal.str "z"), ("count", JsVal.num 2)]] : List Obj).eraseIdx
              i0).eraseIdx j0 ∧
      objGet (objSet ((([[("a", JsVal.str "x"), ("count", JsVal.num 5)],
                        [("a", JsVal.str "z"), ("count", JsVal.num 2)]] : List Obj).eraseIdx
          i0).getD j0 []) "count" (JsVal.num (ct + cf))) "a" = JsVal.str "z" ∧
      (applySingleEdit
          [[("a", JsVal.str "x"), ("count", JsVal.num 5)],
           [("a", JsVal.str "z"), ("count", JsVal.num 2)]]
          ⟨"a", JsVal.str "x", JsVal.str "z", 0⟩).length + 1 =
        ([[("a", JsVal.str "x"), ("count", JsVal.num 5)],
          [("a", JsVal.str "z"), ("count", JsVal.num 2)]] : List Obj).length :=
  refine_C1 _ "a" "x" "z" 0 (by decide) (by decide) (by decide)
    ⟨0, 1, by decide, by decide, by decide, by decide, by decide⟩

theorem rowMatches_str_false (c t : String) (r : Obj) (hr : isStrAt c r = true)
    (h : objGet r c ≠ JsVal.str t) : rowMatches c (JsVal.str t) r = false := by
  obtain ⟨s, hs⟩ := (isStrAt_iff c r).mp hr
  unfold rowMatches
  rw [hs]
  have hst : s ≠ t := fun hh => h (by rw [hs, hh])
  simp [jsEq, hst]

theorem firstIdxWhere_intro {α : Type} (p : α → Bool) (l : List α) (i : Nat) (d : α)
    (hi : i < l.length) (hp : p (l.getD i d) = true)
    (hf : ∀ k, k < i → p (l.getD k d) = false) :
    firstIdxWhere p l = some i := by
  induction l generalizing i with
  | nil => simp at hi
  | cons a rest ih =>
    match i with
    | 0 =>
      simp only [List.getD_cons_zero] at hp
      simp [firstIdxWhere, hp]
    | i' + 1 =>
      have ha : p a = false := by simpa using hf 0 (Nat.succ_pos i')
      simp only [List.getD_cons_succ] at hp
      have hrec := ih i' (Nat.lt_of_succ_lt_succ hi) hp
        (fun k hk => by simpa using hf (k + 1) (Nat.succ_lt_succ hk))
      simp [firstIdxWhere, ha, hrec]

/-- C2.  For every histogram that contains a row whose value at
edit.column equals fromVal but no row (other than possibly the removed
first-matching row itself) whose value equals toVal, applySingleEdit
removes that from-row and inserts at the front a new row whose value at
edit.column is toVal and whose count equals the removed row's count; the
result has as many rows as the input, and the remaining rows keep their
relative order (the tail of the result is exactly the input minus the
removed row). -/
theorem refine_C2 (hist : List Obj) (c f t : String) (ts : Int) (i0 : Nat)
    (hc : c ≠ "count")
    (hstr : ∀ r ∈ hist, isStrAt c r = true)
    (hfrom : firstIdxWhere (rowMatches c (JsVal.str f)) hist = some i0)
    (hto : ∀ r ∈ hist.eraseIdx i0, objGet r c ≠ JsVal.str t) :
    applySingleEdit hist ⟨c, JsVal.str f, JsVal.str t, ts⟩ =
      objSet (objSet [] c (JsVal.str t)) "count" (objGet (hist.getD i0 []) "count") ::
        hist.eraseIdx i0 ∧
    objGet (objSet (objSet [] c (JsVal.str t)) "count" (objGet (hist.getD i0 []) "count"))
        c = JsVal.str t ∧
    objGet (objSet (objSet [] c (JsVal.str t)) "count" (objGet (hist.getD i0 []) "count"))
        "count" = objGet (hist.getD i0 []) "count" ∧
    (applySingleEdit hist ⟨c, JsVal.str f, JsVal.str t, ts⟩).length = hist.length := by
  have htn : firstIdxWhere (rowMatches c (JsVal.str t)) (hist.eraseIdx i0) = none := by
    rw [firstIdxWhere_eq_none_iff]
    intro r hr
    exact rowMatches_str_false c t r
      (hstr r (List.Sublist.mem hr (List.eraseIdx_sublist hist i0))) (hto r hr)
  have heq := applySingleEdit_insert hist ⟨c, JsVal.str f, JsVal.str t, ts⟩ i0 hfrom htn
  obtain ⟨hi0len, _, _⟩ := firstIdxWhere_spec _ hist i0 [] hfrom
  refine ⟨heq, ?_, ?_, ?_⟩
  · rw [objGet_objSet_ne _ _ _ _ hc, objGet_objSet_self]
  · rw [objGet_objSet_self]
  · rw [heq]
    simp only [List.length_cons, List.length_eraseIdx, hi0len, if_true]
    omega

/-- Witness for C2 at a concrete one-row histogram renaming x to w. -/
theorem refine_C2_witness :
    applySingleEdit [[("a", JsVal.str "x"), ("count", JsVal.num 5)]]
        ⟨"a", JsVal.str "x", JsVal.str "w", 0⟩ =
      objSet (objSet [] "a" (JsVal.str "w")) "count"
          (objGet (([[("a", JsVal.str "x"), ("count", JsVal.num 5)]] : List Obj).getD 0 [])
            "count") ::
        ([[("a", JsVal.str "x"), ("count", JsVal.num 5)]] : List Obj).eraseIdx 0 ∧
    objGet (objSet (objSet [] "a" (JsVal.str "w")) "count"
        (objGet (([[("a", JsVal.str "x"), ("count", JsVal.num 5)]] : List Obj).getD 0 [])
          "count")) "a" = JsVal.str "w" ∧
    objGet (objSet (objSet [] "a" (JsVal.str "w")) "count"
        (objGet (([[("a", JsVal.str "x"), ("count", JsVal.num 5)]] : List Obj).getD 0 [])
          "count")) "count" =
      objGet (([[("a", JsVal.str "x"), ("count", JsVal.num 5)]] : List Obj).getD 0 [])
        "count" ∧
    (applySingleEdit [[("a", JsVal.str "x"), ("count", JsVal.num 5)]]
        ⟨"a", JsVal.str "x", JsVal.str "w", 0⟩).length =
      ([[("a", JsVal.str "x"), ("count", JsVal.num 5)]] : List Obj).length :=
  refine_C2 _ "a" "x" "w" 0 0 (by decide) (by decide) (by decide) (by decide)

/-- C4.  applySingleEdit uses first-match semantics: when several rows
match fromVal, only the first one (in list order) is removed — a later
matching row is still present in the result — and the toVal lookup
selects the first remaining row (in list order) matching toVal. -/
theorem refine_C4 (hist : List Obj) (c f t : String) (ts : Int) (i0 m j0 : Nat)
    (hft : f ≠ t)
    (hstr : ∀ r ∈ hist, isStrAt c r = true)
    (hi0 : i0 < hist.length)
    (hi0v : objGet (hist.getD i0 []) c = JsVal.str f)
    (hfirst : ∀ k, k < i0 → objGet (hist.getD k []) c ≠ JsVal.str f)
    (hm : i0 < m) (hmlen : m < hist.length)
    (hmv : objGet (hist.getD m []) c = JsVal.str f)
    (hj0 : j0 < (hist.eraseIdx i0).length)
    (hj0v : objGet ((hist.eraseIdx i0).getD j0 []) c = JsVal.str t)
    (hjfirst : ∀ k, k < j0 → objGet ((hist.eraseIdx i0).getD k []) c ≠ JsVal.str t) :
    firstIdxWhere (rowMatches c (JsVal.str f)) hist = some i0 ∧
    firstIdxWhere (rowMatches c (JsVal.str t)) (hist.eraseIdx i0) = some j0 ∧
    applySingleEdit hist ⟨c, JsVal.str f, JsVal.str t, ts⟩ =
      objSet ((hist.eraseIdx i0).getD j0 []) "count"
        (jsAdd (objGet ((hist.eraseIdx i0).getD j0 []) "count")
          (objGet (hist.getD i0 []) "count")) ::
        (hist.eraseIdx i0).eraseIdx j0 ∧
    hist.getD m [] ∈ applySingleEdit hist ⟨c, JsVal.str f, JsVal.str t, ts⟩ := by
  have hf1 : firstIdxWhere (rowMatches c (JsVal.str f)) hist = some i0 :=
    firstIdxWhere_intro _ hist i0 [] hi0 (rowMatches_str_of_eq c f _ hi0v)
      (fun k hk => rowMatches_str_false c f _
        (hstr _ (getD_mem' hist k [] (Nat.lt_trans hk hi0))) (hfirst k hk))
  have hf2 : firstIdxWhere (rowMatches c (JsVal.str t)) (hist.eraseIdx i0) = some j0 :=
    firstIdxWhere_intro _ _ j0 [] hj0 (rowMatches_str_of_eq c t _ hj0v)
      (fun k hk => rowMatches_str_false c t _
        (hstr _ (List.Sublist.mem (getD_mem' _ k [] (Nat.lt_trans hk hj0))
          (List.eraseIdx_sublist hist i0))) (hjfirst k hk))
  have heq := applySingleEdit_merge hist ⟨c, JsVal.str f, JsVal.str t, ts⟩ i0 j0 hf1 hf2
  refine ⟨hf1, hf2, heq, ?_⟩
  rw [heq]
  have hmpos : 1 ≤ m := by omega
  have hgd : (hist.eraseIdx i0).getD (m - 1) [] = hist.getD m [] :=
    getD_eraseIdx_of_gt hist m i0 [] hm hmlen
  have hmne : m - 1 ≠ j0 := by
    intro hh
    rw [← hh, hgd, hmv] at hj0v
    simp only [JsVal.str.injEq] at hj0v
    exact hft hj0v
  have hmlen' : m - 1 < (hist.eraseIdx i0).length := by
    rw [List.length_eraseIdx]
    simp only [hi0, if_true]
    omega
  have : hist.getD m [] ∈ (hist.eraseIdx i0).eraseIdx j0 := by
    rw [← hgd]
    exact mem_eraseIdx_of_ne _ (m - 1) j0 [] hmlen' hmne
  exact List.mem_cons.mpr (Or.inr this)

/-- Witness for C4 at a three-row histogram with two x-rows. -/
theorem refine_C4_witness :
    firstIdxWhere (rowMatches "a" (JsVal.str "x"))
      [[("a", JsVal.str "x"), ("count", JsVal.num 1)],
       [("a", JsVal.str "x"), ("count", JsVal.num 2)],
       [("a", JsVal.str "z"), ("count", JsVal.num 3)]] = some 0 ∧
    firstIdxWhere (rowMatches "a" (JsVal.str "z"))
      (([[("a", JsVal.str "x"), ("count", JsVal.num 1)],
         [("a", JsVal.str "x"), ("count", JsVal.num 2)],
         [("a", JsVal.str "z"), ("count", JsVal.num 3)]] : List Obj).eraseIdx 0) = some 1 ∧
    applySingleEdit
        [[("a", JsVal.str "x"), ("count", JsVal.num 1)],
         [("a", JsVal.str "x"), ("count", JsVal.num 2)],
         [("a", JsVal.str "z"), ("count", JsVal.num 3)]]
        ⟨"a", JsVal.str "x", JsVal.str "z", 0⟩ =
      objSet ((([[("a", JsVal.str "x"), ("count", JsVal.num 1)],
                 [("a", JsVal.str "x"), ("count", JsVal.num 2)],
                 [("a", JsVal.str "z"), ("count", JsVal.num 3)]] : List Obj).eraseIdx
          0).getD 1 []) "count"
        (jsAdd
          (objGet ((([[("a", JsVal.str "x"), ("count", JsVal.num 1)],
                      [("a", JsVal.str "x"), ("count", JsVal.num 2)],
                      [("a", JsVal.str "z"), ("count", JsVal.num 3)]] : List Obj).eraseIdx
              0).getD 1 []) "count")
          (objGet (([[("a", JsVal.str "x"), ("count", JsVal.num 1)],
                     [("a", JsVal.str "x"), ("count", JsVal.num 2)],
                     [("a", JsVal.str "z"), ("count", JsVal.num 3)]] : List Obj).getD 0 [])
            "count")) ::
        (([[("a", JsVal.str "x"), ("count", JsVal.num 1)],
           [("a", JsVal.str "x"), ("count", JsVal.num 2)],
           [("a", JsVal.str "z"), ("count", JsVal.num 3)]] : List Obj).eraseIdx 0).eraseIdx
          1 ∧
    ([[("a", JsVal.str "x"), ("count", JsVal.num 1)],
      [("a", JsVal.str "x"), ("count", JsVal.num 2)],
      [("a", JsVal.str "z"), ("count", JsVal.num 3)]] : List Obj).getD 1 [] ∈
      applySingleEdit
        [[("a", JsVal.str "x"), ("count", JsVal.num 1)],
         [("a", JsVal.str "x"), ("count", JsVal.num 2)],
         [("a", JsVal.str "z"), ("count", JsVal.num 3)]]
        ⟨"a", JsVal.str "x", JsVal.str "z", 0⟩ :=
  refine_C4 _ "a" "x" "z" 0 0 1 1 (by decide) (by decide) (by decide)
    (by decide) (fun k hk => absurd hk (by omega)) (by decide) (by decide) (by decide)
    (by decide) (by decide)
    (fun k hk => by
      have hk0 : k = 0 := by omega
      subst hk0
      decide)

theorem getD_map {α β : Type} (f : α → β) (l : List α) (i : Nat) (d : α) :
    (l.map f).getD i (f d) = f (l.getD i d) := by
  induction l generalizing i with
  | nil => simp
  | cons a rest ih =>
    match i with
    | 0 => simp
    | i' + 1 => simp [ih i']

theorem nodup_getD_not_mem_eraseIdx {α : Type} (l : List α) (j : Nat) (d : α)
    (hl : l.Nodup) (hj : j < l.length) : l.getD j d ∉ l.eraseIdx j := by
  induction l generalizing j with
  | nil => simp at hj
  | cons a rest ih =>
    match j with
    | 0 =>
      simp only [List.getD_cons_zero, List.eraseIdx]
      exact (List.nodup_cons.mp hl).1
    | j' + 1 =>
      simp only [List.getD_cons_succ, List.eraseIdx]
      intro hmem
      rcases List.mem_cons.mp hmem with hh | hh
      · have hmm : rest.getD j' d ∈ rest := getD_mem' rest j' d (Nat.lt_of_succ_lt_succ hj)
        rw [hh] at hmm
        exact (List.nodup_cons.mp hl).1 hmm
      · exact ih j' (List.nodup_cons.mp hl).2 (Nat.lt_of_succ_lt_succ hj) hh

theorem colVals_cons (c : String) (r : Obj) (l : List Obj) :
    colVals c (r :: l) = objGet r c :: colVals c l := rfl

theorem colVals_eraseIdx (c : String) (l : List Obj) (i : Nat) :
    colVals c (l.eraseIdx i) = (colVals c l).eraseIdx i :=
  map_eraseIdx' _ l i

/-- C7.  applySingleEdit preserves distinctness of the histogram values:
when all rows have pairwise distinct (string) values at edit.column and
some row matches fromVal, the output rows again have pairwise distinct
values at edit.column. -/
theorem refine_C7 (hist : List Obj) (c f t : String) (ts : Int)
    (hc : c ≠ "count")
    (hnd : (colVals c hist).Nodup)
    (hex : ∃ k, k < hist.length ∧ objGet (hist.getD k []) c = JsVal.str f) :
    (colVals c (applySingleEdit hist ⟨c, JsVal.str f, JsVal.str t, ts⟩)).Nodup := by
  obtain ⟨k, hk, hkv⟩ := hex
  obtain ⟨i0, hi0⟩ := firstIdxWhere_isSome _ hist
    ⟨hist.getD k [], getD_mem' hist k [] hk, rowMatches_str_of_eq c f _ hkv⟩
  have hnd1 : (colVals c (hist.eraseIdx i0)).Nodup := by
    rw [colVals_eraseIdx]
    exact List.Nodup.sublist (List.eraseIdx_sublist _ i0) hnd
  cases hto : firstIdxWhere (rowMatches c (JsVal.str t)) (hist.eraseIdx i0) with
  | none =>
    rw [applySingleEdit_insert hist ⟨c, JsVal.str f, JsVal.str t, ts⟩ i0 hi0 hto,
      colVals_cons]
    rw [objGet_objSet_ne _ _ _ _ hc, objGet_objSet_self]
    refine List.nodup_cons.mpr ⟨?_, hnd1⟩
    intro hmem
    obtain ⟨r, hr, hrv⟩ := List.mem_map.mp hmem
    have := (firstIdxWhere_eq_none_iff _ _).mp hto r hr
    rw [rowMatches_str_of_eq c t r hrv] at this
    exact absurd this (by simp)
  | some j0 =>
    obtain ⟨hj0len, hj0p, _⟩ := firstIdxWhere_spec _ _ j0 [] hto
    rw [applySingleEdit_merge hist ⟨c, JsVal.str f, JsVal.str t, ts⟩ i0 j0 hi0 hto,
      colVals_cons]
    rw [objGet_objSet_ne _ _ _ _ hc]
    refine List.nodup_cons.mpr ⟨?_, ?_⟩
    · intro hmem
      rw [colVals_eraseIdx] at hmem
      have hgd : objGet ((hist.eraseIdx i0).getD j0 []) c =
          (colVals c (hist.eraseIdx i0)).getD j0 (objGet [] c) :=
        (getD_map (fun r => objGet r c) (hist.eraseIdx i0) j0 []).symm
      rw [hgd] at hmem
      have hlen : j0 < (colVals c (hist.eraseIdx i0)).length := by
        simpa [colVals] using hj0len
      exact nodup_getD_not_mem_eraseIdx _ j0 _ hnd1 hlen hmem
    · rw [colVals_eraseIdx, colVals_eraseIdx]
      exact List.Nodup.sublist (List.eraseIdx_sublist _ j0)
        (by rw [← colVals_eraseIdx]; exact hnd1)

/-- Witness for C7 at a concrete two-row histogram merging x into z. -/
theorem refine_C7_witness :
    (colVals "a" (applySingleEdit
        [[("a", JsVal.str "x"), ("count", JsVal.num 5)],
         [("a", JsVal.str "z"), ("count", JsVal.num 2)]]
        ⟨"a", JsVal.str "x", JsVal.str "z", 0⟩)).Nodup :=
  refine_C7 _ "a" "x" "z" 0 (by decide) (by decide) ⟨0, by decide, by decide⟩

theorem countSum_cons (r : Obj) (l : List Obj) :
    countSum (r :: l) = countOf r + countSum l := by
  simp [countSum]

theorem countSum_eraseIdx (l : List Obj) (i : Nat) (hi : i < l.length) :
    countSum l = countOf (l.getD i []) + countSum (l.eraseIdx i) := by
  induction l generalizing i with
  | nil => simp at hi
  | cons a rest ih =>
    match i with
    | 0 => simp [countSum, List.eraseIdx]
    | i' + 1 =>
      simp only [List.getD_cons_succ, List.eraseIdx]
      have hrec := ih i' (Nat.lt_of_succ_lt_succ hi)
      rw [countSum_cons, countSum_cons, hrec]
      omega

/-- C8.  applySingleEdit conserves the total count: when the histogram
contains a row matching fromVal (and counts are numbers, as in the
application), the sum of the count fields of the output equals the sum
over the input, in both the merge case and the new-row case. -/
theorem refine_C8 (hist : List Obj) (c : String) (fv tv : JsVal) (ts : Int)
    (hcnt : ∀ r ∈ hist, isNumAt "count" r = true)
    (hfrom : ∃ r ∈ hist, rowMatches c fv r = true) :
    countSum (applySingleEdit hist ⟨c, fv, tv, ts⟩) = countSum hist := by
  obtain ⟨i0, hi0⟩ := firstIdxWhere_isSome _ hist hfrom
  obtain ⟨hi0len, _, _⟩ := firstIdxWhere_spec _ hist i0 [] hi0
  obtain ⟨cf, hcf⟩ := (isNumAt_iff "count" _).mp (hcnt _ (getD_mem' hist i0 [] hi0len))
  have hsum0 := countSum_eraseIdx hist i0 hi0len
  cases hto : firstIdxWhere (rowMatches c tv) (hist.eraseIdx i0) with
  | none =>
    rw [applySingleEdit_insert hist ⟨c, fv, tv, ts⟩ i0 hi0 hto, countSum_cons]
    have hnew : countOf (objSet (objSet [] c tv) "count" (objGet (hist.getD i0 []) "count")) =
        countOf (hist.getD i0 []) := by
      unfold countOf
      rw [objGet_objSet_self]
    rw [hnew]
    omega
  | some j0 =>
    obtain ⟨hj0len, _, _⟩ := firstIdxWhere_spec _ _ j0 [] hto
    obtain ⟨ct, hct⟩ := (isNumAt_iff "count" _).mp (hcnt _
      (List.Sublist.mem (getD_mem' _ j0 [] hj0len) (List.eraseIdx_sublist hist i0)))
    have hsum1 := countSum_eraseIdx (hist.eraseIdx i0) j0 hj0len
    rw [applySingleEdit_merge hist ⟨c, fv, tv, ts⟩ i0 j0 hi0 hto, countSum_cons]
    have hmerged : countOf (objSet ((hist.eraseIdx i0).getD j0 []) "count"
        (jsAdd (objGet ((hist.eraseIdx i0).getD j0 []) "count")
          (objGet (hist.getD i0 []) "count"))) = ct + cf := by
      unfold countOf
      rw [objGet_objSet_self, hct, hcf]
      simp [jsAdd]
    have hcf' : countOf (hist.getD i0 []) = cf := by
      unfold countOf
      rw [hcf]
    have hct' : countOf ((hist.eraseIdx i0).getD j0 []) = ct := by
      unfold countOf
      rw [hct]
    rw [hmerged]
    omega

/-- Witness for C8 at a concrete two-row histogram merging x into z. -/
theorem refine_C8_witness :
    countSum (applySingleEdit
        [[("a", JsVal.str "x"), ("count", JsVal.num 5)],
         [("a", JsVal.str "z"), ("count", JsVal.num 2)]]
        ⟨"a", JsVal.str "x", JsVal.str "z", 0⟩) =
      countSum [[("a", JsVal.str "x"), ("count", JsVal.num 5)],
                [("a", JsVal.str "z"), ("count", JsVal.num 2)]] :=
  refine_C8 _ "a" (JsVal.str "x") (JsVal.str "z") 0 (by decide)
    ⟨[("a", JsVal.str "x"), ("count", JsVal.num 5)], by decide, by decide⟩

/-- C5 counterexample.  The replayed histogram is not the fold of
applySingleEdit over all edits of the log: an edit whose column differs
from the selected column is skipped by loadHistogram, while folding it
through applySingleEdit would corrupt the histogram. -/
theorem refine_C5_counterexample :
    loadHistogramEdited "a" [⟨"b", JsVal.str "q", JsVal.str "r", 0⟩]
        [[("a", JsVal.str "x"), ("count", JsVal.num 1)]] ≠
      List.foldl applySingleEdit [[("a", JsVal.str "x"), ("count", JsVal.num 1)]]
        [⟨"b", JsVal.str "q", JsVal.str "r", 0⟩] := by
  decide

/-- C5 (amended).  The replayed histogram produced by loadHistogram
equals the left fold of applySingleEdit, starting from the fetched rows,
over exactly those edits of the log whose column equals the selected
column, taken in log order. -/
theorem refine_C5 (col : String) (edits : List Edit) (rows : List Obj) :
    loadHistogramEdited col edits rows =
      (edits.filter (fun e => e.column == col)).foldl applySingleEdit rows := by
  induction edits generalizing rows with
  | nil => rfl
  | cons e rest ih =>
    simp only [loadHistogramEdited] at ih ⊢
    rw [List.foldl_cons, List.filter_cons]
    by_cases h : e.column = col
    · rw [if_pos (by simpa using h), if_pos (by simpa using h), List.foldl_cons]
      exact ih (applySingleEdit rows e)
    · rw [if_neg (by simpa using h), if_neg (by simpa using h)]
      exact ih rows

/-- C3 is a code bug: when no row matches fromVal the edit is not
skipped.  fromIdx stays -1, so splice(-1, 1) removes the last row and
Object.assign on newHist[-1] gives an empty fromEntry: here the one-row
histogram x:5 becomes a single row z with undefined count instead of
being returned unchanged. -/
theorem refine_C3_bug :
    applySingleEdit [[("a", JsVal.str "x"), ("count", JsVal.num 5)]]
        ⟨"a", JsVal.str "y", JsVal.str "z", 0⟩ =
      [[("a", JsVal.str "z"), ("count", JsVal.undef)]] ∧
    applySingleEdit [[("a", JsVal.str "x"), ("count", JsVal.num 5)]]
        ⟨"a", JsVal.str "y", JsVal.str "z", 0⟩ ≠
      [[("a", JsVal.str "x"), ("count", JsVal.num 5)]] := by
  decide

theorem getD_append_lt {α : Type} (l l' : List α) (k : Nat) (d : α) (h : k < l.length) :
    (l ++ l').getD k d = l.getD k d := by
  induction l generalizing k with
  | nil => simp at h
  | cons a rest ih =>
    match k with
    | 0 => simp
    | k' + 1 => simpa using ih k' (Nat.lt_of_succ_lt_succ h)

theorem getD_set_ne {α : Type} (l : List α) (r k : Nat) (o : α) (d : α) (h : k ≠ r) :
    (l.set r o).getD k d = l.getD k d := by
  induction l generalizing r k with
  | nil => simp
  | cons a rest ih =>
    match r, k with
    | 0, 0 => exact absurd rfl h
    | 0, k' + 1 => simp [List.set]
    | r' + 1, 0 => simp [List.set]
    | r' + 1, k' + 1 =>
      simp only [List.set, List.getD_cons_succ]
      exact ih r' k' (fun hh => h (by omega))

theorem applySingleEditRefTo_frame (σ : Store) (fromRef : Nat) (hist1 : List Nat)
    (edit : Edit) :
    (∀ k, k < σ.length → deref (applySingleEditRefTo σ fromRef hist1 edit).1 k = deref σ k) ∧
    (∃ r rest, (applySingleEditRefTo σ fromRef hist1 edit).2 = r :: rest ∧
      σ.length ≤ r ∧ rest.Sublist hist1) := by
  cases hto : firstIdxWhere (fun r => rowMatches edit.column edit.toVal (deref σ r)) hist1 with
  | none =>
    constructor
    · intro k hk
      simp only [applySingleEditRefTo, hto, allocObj]
      unfold deref
      rw [getD_append_lt _ _ k _ hk]
    · exact ⟨σ.length, hist1, by simp [applySingleEditRefTo, hto, allocObj],
        Nat.le_refl _, List.Sublist.refl hist1⟩
  | some j =>
    constructor
    · intro k hk
      simp only [applySingleEditRefTo, hto, allocObj, storeWrite]
      unfold deref
      rw [getD_set_ne _ _ k _ _ (by omega), getD_append_lt _ _ k _ hk]
    · exact ⟨σ.length, hist1.eraseIdx j, by simp [applySingleEditRefTo, hto, allocObj],
        Nat.le_refl _, List.eraseIdx_sublist hist1 j⟩

/-- C9.  applySingleEdit does not mutate its input: in the store-passing
translation, every row object the store held before the call is
unchanged after it (hist.slice() copies the array, Object.assign clones
rows before they are written, and the count increment writes only the
fresh clone); the result array is a fresh cons whose head is a freshly
allocated row and whose tail is a subsequence of the original row
references in their original order. -/
theorem refine_C9 (σ : Store) (hist : List Nat) (edit : Edit) :
    (∀ k, k < σ.length → deref (applySingleEditRef σ hist edit).1 k = deref σ k) ∧
    (∃ r rest, (applySingleEditRef σ hist edit).2 = r :: rest ∧
      σ.length ≤ r ∧ rest.Sublist hist) := by
  cases hfrom : firstIdxWhere (fun r => rowMatches edit.column edit.fromVal (deref σ r))
      hist with
  | some i =>
    have hmain := applySingleEditRefTo_frame (σ ++ [deref σ (hist.getD i 0)]) σ.length
      (hist.eraseIdx i) edit
    constructor
    · intro k hk
      simp only [applySingleEditRef, hfrom, allocObj]
      rw [hmain.1 k (by simp; omega)]
      unfold deref
      rw [getD_append_lt _ _ k _ hk]
    · obtain ⟨r, rest, hlist, hr, hsub⟩ := hmain.2
      refine ⟨r, rest, ?_, ?_, List.Sublist.trans hsub (List.eraseIdx_sublist hist i)⟩
      · simp only [applySingleEditRef, hfrom, allocObj]
        exact hlist
      · simp only [List.length_append, List.length_cons, List.length_nil] at hr
        omega
  | none =>
    have hmain := applySingleEditRefTo_frame (σ ++ [[]]) σ.length hist.dropLast edit
    constructor
    · intro k hk
      simp only [applySingleEditRef, hfrom, allocObj]
      rw [hmain.1 k (by simp; omega)]
      unfold deref
      rw [getD_append_lt _ _ k _ hk]
    · obtain ⟨r, rest, hlist, hr, hsub⟩ := hmain.2
      refine ⟨r, rest, ?_, ?_, List.Sublist.trans hsub (List.dropLast_sublist hist)⟩
      · simp only [applySingleEditRef, hfrom, allocObj]
        exact hlist
      · simp only [List.length_append, List.length_cons, List.length_nil] at hr
        omega

/-- Witness for C9 at a concrete two-row store. -/
theorem refine_C9_witness :
    (∀ k, k < ([[("a", JsVal.str "x"), ("count", JsVal.num 5)],
                [("a", JsVal.str "z"), ("count", JsVal.num 2)]] : Store).length →
      deref (applySingleEditRef
          [[("a", JsVal.str "x"), ("count", JsVal.num 5)],
           [("a", JsVal.str "z"), ("count", JsVal.num 2)]] [0, 1]
          ⟨"a", JsVal.str "x", JsVal.str "z", 0⟩).1 k =
        deref [[("a", JsVal.str "x"), ("count", JsVal.num 5)],
               [("a", JsVal.str "z"), ("count", JsVal.num 2)]] k) ∧
    (∃ r rest, (applySingleEditRef
          [[("a", JsVal.str "x"), ("count", JsVal.num 5)],
           [("a", JsVal.str "z"), ("count", JsVal.num 2)]] [0, 1]
          ⟨"a", JsVal.str "x", JsVal.str "z", 0⟩).2 = r :: rest ∧
      ([[("a", JsVal.str "x"), ("count", JsVal.num 5)],
        [("a", JsVal.str "z"), ("count", JsVal.num 2)]] : Store).length ≤ r ∧
      rest.Sublist [0, 1]) :=
  refine_C9 _ _ _

theorem insertAutofetch_inv (pre : List Autofetch) (acc : List (Int × AFGroup))
    (a : Autofetch) (h : GroupsInv pre acc) :
    GroupsInv (pre ++ [a]) (insertAutofetch acc a) := by
  obtain ⟨hnd, hcov, hent⟩ := h
  unfold insertAutofetch
  by_cases hany : acc.any (fun p => p.1 == a.workflow.id)
  · simp only [hany, if_true]
    refine ⟨?_, ?_, ?_⟩
    · rw [List.map_map]
      rw [List.map_congr_left (g := Prod.fst) (fun p _ => by
        by_cases hpg : p.1 = a.workflow.id <;> simp [hpg])]
      exact hnd
    · intro b hb
      rcases List.mem_append.mp hb with hb | hb
      · obtain ⟨p, hp, hpid⟩ := hcov b hb
        by_cases hpg : p.1 = a.workflow.id
        · exact ⟨_, List.mem_map_of_mem _ hp, by simp [hpg]; exact hpg ▸ hpid⟩
        · exact ⟨_, List.mem_map_of_mem _ hp, by simp [hpg]; exact hpid⟩
      · rw [List.mem_singleton.mp hb]
        obtain ⟨p, hp, hpg⟩ := List.any_eq_true.mp hany
        have hpg' : p.1 = a.workflow.id := by simpa using hpg
        exact ⟨_, List.mem_map_of_mem _ hp, by simp [hpg']⟩
    · intro q hq
      obtain ⟨p, hp, rfl⟩ := List.mem_map.mp hq
      obtain ⟨hwid, hfilt, hsum, hex⟩ := hent p hp
      by_cases hpg : p.1 = a.workflow.id
      · simp only [hpg, beq_self_eq_true, if_true]
        refine ⟨hwid.trans hpg, ?_, ?_, ?_⟩
        · rw [List.filter_append, hfilt, hpg]
          simp
        · simp only [List.map_append, List.sum_append, hsum]
          simp
        · exact ⟨a, List.mem_append_right _ (List.mem_singleton_self a), rfl⟩
      · simp only [hpg, if_neg, beq_iff_eq, if_false]
        refine ⟨hwid, ?_, hsum, ?_⟩
        · rw [List.filter_append, hfilt]
          have : (a.workflow.id == p.1) = false := by
            simp
            exact fun hh => hpg hh.symm
          simp [this]
        · obtain ⟨b, hb, hbid⟩ := hex
          exact ⟨b, List.mem_append_left _ hb, hbid⟩
  · have hany' : (acc.any fun p => p.1 == a.workflow.id) = false :=
      Bool.eq_false_iff.mpr hany
    simp only [hany', Bool.false_eq_true, if_false]
    have hnotin : ∀ p ∈ acc, p.1 ≠ a.workflow.id := by
      intro p hp
      have := List.any_eq_false.mp hany' p hp
      simpa using this
    have hmapacc : acc.map (fun p =>
        if p.1 == a.workflow.id then
          (p.1, { p.2 with
            nFetchesPerDay := p.2.nFetchesPerDay + 86400 / a.wfModule.fetchInterval,
            autofetches := p.2.autofetches ++ [a] })
        else p) = acc := by
      rw [List.map_congr_left (g := id) (fun p hp => by simp [hnotin p hp]), List.map_id]
    rw [List.map_append, hmapacc]
    simp only [List.map_cons, List.map_nil, beq_self_eq_true, if_true, reduceIte]
    have hprefilter : pre.filter (fun b => b.workflow.id == a.workflow.id) = [] := by
      rw [List.filter_eq_nil_iff]
      intro b hb
      obtain ⟨p, hp, hpid⟩ := hcov b hb
      simp only [beq_iff_eq]
      intro hh
      exact hnotin p hp (hpid.trans hh)
    refine ⟨?_, ?_, ?_⟩
    · simp only [List.map_append, List.map_cons, List.map_nil]
      rw [List.nodup_append]
      refine ⟨hnd, List.nodup_singleton _, ?_⟩
      intro x hx hx2
      simp only [List.map_map, List.mem_singleton] at hx2
      obtain ⟨p, hp, hpx⟩ := List.mem_map.mp hx
      rw [hx2] at hpx
      exact hnotin p hp hpx
    · intro b hb
      rcases List.mem_append.mp hb with hb | hb
      · obtain ⟨p, hp, hpid⟩ := hcov b hb
        exact ⟨p, List.mem_append_left _ hp, hpid⟩
      · rw [List.mem_singleton.mp hb]
        refine ⟨(a.workflow.id,
          { workflow := a.workflow,
            nFetchesPerDay := 0 + 86400 / a.wfModule.fetchInterval,
            autofetches := [] ++ [a] }), List.mem_append_right _ (by simp), rfl⟩
    · intro q hq
      rcases List.mem_append.mp hq with hq | hq
      · obtain ⟨hwid, hfilt, hsum, hex⟩ := hent q hq
        refine ⟨hwid, ?_, hsum, ?_⟩
        · rw [List.filter_append, hfilt]
          have : (a.workflow.id == q.1) = false := by
            simp only [beq_eq_false_iff_ne, ne_eq]
            exact fun hh => hnotin q hq hh.symm
          simp [this]
        · obtain ⟨b, hb, hbid⟩ := hex
          exact ⟨b, List.mem_append_left _ hb, hbid⟩
      · rw [List.mem_singleton.mp hq]
        refine ⟨by simp, ?_, ?_, ?_⟩
        · simp only [List.filter_append, hprefilter]
          simp
        · simp
        · exact ⟨a, List.mem_append_right _ (List.mem_singleton_self a), by simp⟩

theorem foldl_insertAutofetch_inv (l : List Autofetch) :
    ∀ (pre : List Autofetch) (acc : List (Int × AFGroup)), GroupsInv pre acc →
      GroupsInv (pre ++ l) (l.foldl insertAutofetch acc) := by
  induction l with
  | nil =>
    intro pre acc h
    simpa using h
  | cons a rest ih =>
    intro pre acc h
    have h3 := ih (pre ++ [a]) (insertAutofetch acc a) (insertAutofetch_inv pre acc a h)
    rw [List.append_assoc] at h3
    simpa using h3

theorem groupsInv_nil : GroupsInv [] [] :=
  ⟨by simp, by simp, by simp⟩

/-- C10.  groupAutofetches returns exactly one group per distinct
workflow id; each group holds exactly the input autofetches of that
workflow, in input order, and an nFetchesPerDay equal to the sum of
86400 / fetchInterval over them; and the groups come out sorted in
non-increasing nFetchesPerDay order with ties ordered by workflow name
(the comparator's order groupLe).  JavaScript numbers are modelled
exactly over the rationals; the positivity hypothesis keeps the model on
the domain where JavaScript division is finite. -/
theorem quota_C10 (autofetches : List Autofetch)
    (_hpos : ∀ a ∈ autofetches, 0 < a.wfModule.fetchInterval) :
    ((groupAutofetches autofetches).map (fun g => g.workflow.id)).Nodup ∧
    (∀ a ∈ autofetches, ∃ g ∈ groupAutofetches autofetches,
      g.workflow.id = a.workflow.id) ∧
    (∀ g ∈ groupAutofetches autofetches,
      g.autofetches = autofetches.filter (fun a => a.workflow.id == g.workflow.id) ∧
      g.nFetchesPerDay =
        (g.autofetches.map (fun a => (86400 : ℚ) / a.wfModule.fetchInterval)).sum ∧
      ∃ a ∈ autofetches, a.workflow.id = g.workflow.id) ∧
    List.Sorted groupLe (groupAutofetches autofetches) := by
  have hinv := foldl_insertAutofetch_inv autofetches [] [] groupsInv_nil
  rw [List.nil_append] at hinv
  obtain ⟨hnd, hcov, hent⟩ := hinv
  have hperm : (groupAutofetches autofetches).Perm
      ((autofetches.foldl insertAutofetch []).map Prod.snd) := by
    unfold groupAutofetches
    exact List.perm_insertionSort groupLe _
  refine ⟨?_, ?_, ?_, ?_⟩
  · have h1 : ((autofetches.foldl insertAutofetch []).map Prod.snd).map
        (fun g => g.workflow.id) = (autofetches.foldl insertAutofetch []).map Prod.fst := by
      rw [List.map_map]
      exact List.map_congr_left (fun p hp => (hent p hp).1)
    exact (hperm.map (fun g => g.workflow.id)).symm.nodup (h1 ▸ hnd)
  · intro a ha
    obtain ⟨p, hp, hpid⟩ := hcov a ha
    refine ⟨p.2, hperm.symm.mem_iff.mp (List.mem_map_of_mem Prod.snd hp), ?_⟩
    rw [(hent p hp).1, hpid]
  · intro g hg
    obtain ⟨p, hp, hpg⟩ := List.mem_map.mp (hperm.mem_iff.mp hg)
    obtain ⟨hwid, hfilt, hsum, hex⟩ := hent p hp
    rw [hpg] at hwid hfilt hsum
    rw [← hwid] at hfilt hex
    exact ⟨hfilt, hsum, hex⟩
  · unfold groupAutofetches
    exact List.sorted_insertionSort groupLe _

/-- Witness for C10 at a concrete three-autofetch list over two
workflows. -/
theorem quota_C10_witness :
    ((groupAutofetches
        [⟨⟨1, "wfA"⟩, ⟨10, 86400⟩⟩, ⟨⟨2, "wfB"⟩, ⟨11, 43200⟩⟩,
         ⟨⟨1, "wfA"⟩, ⟨12, 28800⟩⟩]).map (fun g => g.workflow.id)).Nodup ∧
    (∀ a ∈ ([⟨⟨1, "wfA"⟩, ⟨10, 86400⟩⟩, ⟨⟨2, "wfB"⟩, ⟨11, 43200⟩⟩,
             ⟨⟨1, "wfA"⟩, ⟨12, 28800⟩⟩] : List Autofetch),
      ∃ g ∈ groupAutofetches
        [⟨⟨1, "wfA"⟩, ⟨10, 86400⟩⟩, ⟨⟨2, "wfB"⟩, ⟨11, 43200⟩⟩,
         ⟨⟨1, "wfA"⟩, ⟨12, 28800⟩⟩], g.workflow.id = a.workflow.id) ∧
    (∀ g ∈ groupAutofetches
        [⟨⟨1, "wfA"⟩, ⟨10, 86400⟩⟩, ⟨⟨2, "wfB"⟩, ⟨11, 43200⟩⟩,
         ⟨⟨1, "wfA"⟩, ⟨12, 28800⟩⟩],
      g.autofetches = ([⟨⟨1, "wfA"⟩, ⟨10, 86400⟩⟩, ⟨⟨2, "wfB"⟩, ⟨11, 43200⟩⟩,
          ⟨⟨1, "wfA"⟩, ⟨12, 28800⟩⟩] : List Autofetch).filter
          (fun a => a.workflow.id == g.workflow.id) ∧
      g.nFetchesPerDay =
        (g.autofetches.map (fun a => (86400 : ℚ) / a.wfModule.fetchInterval)).sum ∧
      ∃ a ∈ ([⟨⟨1, "wfA"⟩, ⟨10, 86400⟩⟩, ⟨⟨2, "wfB"⟩, ⟨11, 43200⟩⟩,
              ⟨⟨1, "wfA"⟩, ⟨12, 28800⟩⟩] : List Autofetch),
        a.workflow.id = g.workflow.id) ∧
    List.Sorted groupLe (groupAutofetches
      [⟨⟨1, "wfA"⟩, ⟨10, 86400⟩⟩, ⟨⟨2, "wfB"⟩, ⟨11, 43200⟩⟩,
       ⟨⟨1, "wfA"⟩, ⟨12, 28800⟩⟩]) :=
  quota_C10 _ (by decide)

theorem digitVal_digitChar (d : Nat) (h : d < 10) : digitVal (digitChar d) = d := by
  interval_cases d <;> decide

theorem isDigit_digitChar (d : Nat) (h : d < 10) : (digitChar d).isDigit = true := by
  interval_cases d <;> decide

theorem natDigits_digits (n : Nat) : ∀ c ∈ natDigits n, c.isDigit = true := by
  induction n using Nat.strong_induction_on with
  | _ n ih =>
    rw [natDigits]
    by_cases h : n < 10
    · simp only [h, dif_pos]
      intro c hc
      rw [List.mem_singleton.mp hc]
      exact isDigit_digitChar n h
    · simp only [h, dif_neg, not_false_iff]
      intro c hc
      rcases List.mem_append.mp hc with hc | hc
      · exact ih (n / 10) (Nat.div_lt_self (by omega) (by omega)) c hc
      · rw [List.mem_singleton.mp hc]
        exact isDigit_digitChar (n % 10) (Nat.mod_lt n (by omega))

theorem natDigits_ne_nil (n : Nat) : natDigits n ≠ [] := by
  rw [natDigits]
  by_cases h : n < 10
  · simp [h]
  · simp [h]

theorem natDigits_val (n : Nat) :
    (natDigits n).foldl (fun acc c => 10 * acc + digitVal c) 0 = n := by
  induction n using Nat.strong_induction_on with
  | _ n ih =>
    rw [natDigits]
    by_cases h : n < 10
    · simp only [h, dif_pos, List.foldl_cons, List.foldl_nil]
      rw [digitVal_digitChar n h]
      omega
    · simp only [h, dif_neg, not_false_iff, List.foldl_append, List.foldl_cons,
        List.foldl_nil]
      rw [ih (n / 10) (Nat.div_lt_self (by omega) (by omega)),
        digitVal_digitChar (n % 10) (Nat.mod_lt n (by omega))]
      omega

theorem digitSpan_append (ds rest : List Char) (h1 : ∀ c ∈ ds, c.isDigit = true)
    (h2 : ∀ c cs, rest = c :: cs → c.isDigit = false) :
    digitSpan (ds ++ rest) = (ds, rest) := by
  induction ds with
  | nil =>
    rw [List.nil_append]
    cases rest with
    | nil => rfl
    | cons c cs =>
      unfold digitSpan
      rw [h2 c cs rfl]
      simp
  | cons d ds' ih =>
    rw [List.cons_append]
    unfold digitSpan
    rw [h1 d (List.mem_cons_self d ds')]
    rw [ih (fun c hc => h1 c (List.mem_cons_of_mem d hc))]
    simp

theorem parseNatChars_append (n : Nat) (rest : List Char)
    (h2 : ∀ c cs, rest = c :: cs → c.isDigit = false) :
    parseNatChars (natDigits n ++ rest) = some (n, rest) := by
  unfold parseNatChars
  rw [digitSpan_append (natDigits n) rest (natDigits_digits n) h2]
  simp only [natDigits_ne_nil n, if_false, natDigits_val n]

theorem parseIntChars_append (n : Int) (rest : List Char)
    (h2 : ∀ c cs, rest = c :: cs → c.isDigit = false) :
    parseIntChars (intChars n ++ rest) = some (n, rest) := by
  by_cases hn : n < 0
  · have h1 : intChars n = '-' :: natDigits n.natAbs := by
      unfold intChars
      rw [if_pos hn]
    rw [h1, List.cons_append]
    simp only [parseIntChars]
    rw [if_pos trivial, parseNatChars_append n.natAbs rest h2]
    simp only [Option.map_some']
    have : -(n.natAbs : Int) = n := by omega
    rw [this]
  · have h1 : intChars n = natDigits n.natAbs := by
      unfold intChars
      rw [if_neg hn]
    obtain ⟨c, cs', hcs⟩ : ∃ c cs', natDigits n.natAbs = c :: cs' := by
      cases h : natDigits n.natAbs with
      | nil => exact absurd h (natDigits_ne_nil _)
      | cons c cs' => exact ⟨c, cs', rfl⟩
    have hcd : c.isDigit = true := natDigits_digits _ c (by rw [hcs]; exact List.mem_cons_self c cs')
    have hcne : ¬(c = '-') := by
      intro hh
      rw [hh] at hcd
      exact absurd hcd (by decide)
    rw [h1, hcs, List.cons_append]
    simp only [parseIntChars]
    rw [if_neg hcne, ← List.cons_append, ← hcs, parseNatChars_append n.natAbs rest h2]
    simp only [Option.map_some']
    have : (n.natAbs : Int) = n := by omega
    rw [this]

theorem string_mk_data (s : String) : String.mk s.data = s := rfl

theorem parseStrBody_cons_eq (c : Char) (cs : List Char) :
    parseStrBody (c :: cs) =
      (if c = '"' then some ([], cs)
      else if c = '\\' then
        match cs with
        | [] => none
        | e :: cs' =>
          if e = '"' ∨ e = '\\' then (parseStrBody cs').map (fun p => (e :: p.1, p.2))
          else none
      else (parseStrBody cs).map (fun p => (c :: p.1, p.2))) := by
  rw [parseStrBody.eq_def]

theorem parseStrBody_quote (cs : List Char) : parseStrBody ('"' :: cs) = some ([], cs) := by
  rw [parseStrBody_cons_eq, if_pos rfl]

theorem parseStrBody_escape (e : Char) (cs : List Char) (he : e = '"' ∨ e = '\\') :
    parseStrBody ('\\' :: e :: cs) = (parseStrBody cs).map (fun p => (e :: p.1, p.2)) := by
  rw [parseStrBody_cons_eq, if_neg (by decide), if_pos rfl]
  show (if e = '"' ∨ e = '\\' then (parseStrBody cs).map (fun p => (e :: p.1, p.2))
    else none) = _
  rw [if_pos he]

theorem parseStrBody_other (c : Char) (cs : List Char) (h1 : ¬(c = '"'))
    (h2 : ¬(c = '\\')) :
    parseStrBody (c :: cs) = (parseStrBody cs).map (fun p => (c :: p.1, p.2)) := by
  rw [parseStrBody_cons_eq, if_neg h1, if_neg h2]

theorem parseStrBody_round (cl : List Char) (rest : List Char) :
    parseStrBody ((cl.map escapeChar).flatten ++ ('"' :: rest)) = some (cl, rest) := by
  induction cl with
  | nil =>
    simp only [List.map_nil, List.flatten_nil, List.nil_append]
    exact parseStrBody_quote rest
  | cons c cl' ih =>
    simp only [List.map_cons, List.flatten_cons, List.append_assoc]
    by_cases h1 : c = '"'
    · have hec : escapeChar c = ['\\', '"'] := by
        unfold escapeChar
        rw [if_pos h1]
      rw [hec]
      subst h1
      simp only [List.cons_append, List.nil_append]
      rw [parseStrBody_escape '"' _ (Or.inl rfl), ih]
      rfl
    · by_cases h2 : c = '\\'
      · have hec : escapeChar c = ['\\', '\\'] := by
          unfold escapeChar
          rw [if_neg h1, if_pos h2]
        rw [hec]
        subst h2
        simp only [List.cons_append, List.nil_append]
        rw [parseStrBody_escape '\\' _ (Or.inr rfl), ih]
        rfl
      · have hec : escapeChar c = [c] := by
          unfold escapeChar
          rw [if_neg h1, if_neg h2]
        rw [hec]
        simp only [List.singleton_append]
        rw [parseStrBody_other c _ h1 h2, ih]
        rfl

theorem parseQuoted_round (s : String) (rest : List Char) :
    parseQuoted (quoteChars s ++ rest) = some (s, rest) := by
  unfold quoteChars
  simp only [List.cons_append]
  simp only [parseQuoted]
  rw [List.append_assoc, List.singleton_append]
  unfold strBodyChars
  rw [parseStrBody_round s.data rest]
  simp only [Option.map_some']

theorem parseVal_round (v : JsVal) (rest : List Char) (hv : serializableVal v = true)
    (hrest : ∀ c cs, rest = c :: cs → c.isDigit = false) :
    parseVal (valChars v ++ rest) = some (v, rest) := by
  cases v with
  | undef => simp [serializableVal] at hv
  | nan => simp [serializableVal] at hv
  | str s =>
    show parseVal (quoteChars s ++ rest) = some (JsVal.str s, rest)
    unfold quoteChars
    simp only [List.cons_append]
    simp only [parseVal]
    rw [if_pos trivial]
    rw [show ('"' :: ((strBodyChars s ++ ['"']) ++ rest)) = quoteChars s ++ rest from by
      simp [quoteChars]]
    rw [parseQuoted_round s rest]
    rfl
  | num n =>
    show parseVal (intChars n ++ rest) = some (JsVal.num n, rest)
    obtain ⟨c, cs', hcs, hcq⟩ : ∃ c cs', intChars n = c :: cs' ∧ ¬(c = '"') := by
      by_cases hn : n < 0
      · refine ⟨'-', natDigits n.natAbs, ?_, by decide⟩
        unfold intChars
        rw [if_pos hn]
      · obtain ⟨c, cs', hcs⟩ : ∃ c cs', natDigits n.natAbs = c :: cs' := by
          cases h : natDigits n.natAbs with
          | nil => exact absurd h (natDigits_ne_nil _)
          | cons c cs' => exact ⟨c, cs', rfl⟩
        have hcd : c.isDigit = true :=
          natDigits_digits _ c (by rw [hcs]; exact List.mem_cons_self c cs')
        refine ⟨c, cs', ?_, ?_⟩
        · unfold intChars
          rw [if_neg hn, hcs]
        · intro hh
          rw [hh] at hcd
          exact absurd hcd (by decide)
    rw [hcs, List.cons_append]
    simp only [parseVal]
    rw [if_neg hcq, ← List.cons_append, ← hcs, parseIntChars_append n rest hrest]
    rfl

theorem expectLit_append (lit cs : List Char) : expectLit lit (lit ++ cs) = some cs := by
  induction lit with
  | nil => rfl
  | cons c lit' ih =>
    simp only [List.cons_append]
    unfold expectLit
    rw [if_pos rfl]
    exact ih

theorem intercalate_four (sep a b c d : List Char) :
    List.intercalate sep [a, b, c, d] = a ++ sep ++ (b ++ sep ++ (c ++ sep ++ d)) := by
  simp [List.intercalate, List.intersperse, List.append_assoc]

theorem editChars_eq (e : Edit) (hf : e.fromVal ≠ JsVal.undef)
    (ht : e.toVal ≠ JsVal.undef) :
    editChars e =
      (Char.ofNat 123 :: (quoteChars "column" ++ [':'])) ++
      (quoteChars e.column ++
        ((',' :: (quoteChars "fromVal" ++ [':'])) ++
          (valChars e.fromVal ++
            ((',' :: (quoteChars "toVal" ++ [':'])) ++
              (valChars e.toVal ++
                ((',' :: (quoteChars "timestamp" ++ [':'])) ++
                  (intChars e.timestamp ++ [Char.ofNat 125]))))))) := by
  unfold editChars memberChars
  rw [if_neg hf, if_neg ht]
  rw [show ([quoteChars "column" ++ ':' :: quoteChars e.column] ++
      [quoteChars "fromVal" ++ ':' :: valChars e.fromVal] ++
      [quoteChars "toVal" ++ ':' :: valChars e.toVal] ++
      [quoteChars "timestamp" ++ ':' :: intChars e.timestamp]) =
    [quoteChars "column" ++ ':' :: quoteChars e.column,
     quoteChars "fromVal" ++ ':' :: valChars e.fromVal,
     quoteChars "toVal" ++ ':' :: valChars e.toVal,
     quoteChars "timestamp" ++ ':' :: intChars e.timestamp] from by simp]
  rw [intercalate_four]
  simp [List.append_assoc]

theorem parseOneEdit_round (e : Edit) (rest : List Char)
    (hser : serializableEdit e = true) :
    parseOneEdit (editChars e ++ rest) = some (e, rest) := by
  rw [serializableEdit, Bool.and_eq_true, Bool.and_eq_true] at hser
  obtain ⟨⟨hcol, hfv⟩, htv⟩ := hser
  have hf : e.fromVal ≠ JsVal.undef := by
    intro hh
    rw [hh] at hfv
    simp [serializableVal] at hfv
  have ht : e.toVal ≠ JsVal.undef := by
    intro hh
    rw [hh] at htv
    simp [serializableVal] at htv
  rw [editChars_eq e hf ht]
  unfold parseOneEdit
  rw [List.append_assoc, expectLit_append]
  simp only [Option.some_bind]
  rw [List.append_assoc, parseQuoted_round]
  simp only [Option.some_bind]
  rw [List.append_assoc, expectLit_append]
  simp only [Option.some_bind]
  rw [List.append_assoc,
    parseVal_round e.fromVal _ hfv (fun c cs h => by
      rw [List.cons_append] at h
      cases h
      decide)]
  simp only [Option.some_bind]
  rw [List.append_assoc, expectLit_append]
  simp only [Option.some_bind]
  rw [List.append_assoc,
    parseVal_round e.toVal _ htv (fun c cs h => by
      rw [List.cons_append] at h
      cases h
      decide)]
  simp only [Option.some_bind]
  rw [List.append_assoc, expectLit_append]
  simp only [Option.some_bind]
  rw [List.append_assoc, List.singleton_append,
    parseIntChars_append e.timestamp _ (fun c cs h => by
      cases h
      decide)]
  simp only [Option.some_bind]
  rw [show (Char.ofNat 125 :: rest) = [Char.ofNat 125] ++ rest from rfl, expectLit_append]
  simp only [Option.map_some']

theorem intercalate_editChars (e : Edit) (l : List Edit) :
    List.intercalate [','] ((e :: l).map editChars) ++ [']'] =
      editChars e ++ tailChars l := by
  induction l generalizing e with
  | nil => simp [List.intercalate, tailChars]
  | cons e' l' ih =>
    rw [List.map_cons]
    rw [show List.intercalate [','] (editChars e :: (e' :: l').map editChars) =
        editChars e ++ ',' :: List.intercalate [','] ((e' :: l').map editChars) from by
      simp [List.intercalate, List.intersperse_cons_cons]]
    rw [show tailChars (e' :: l') = ',' :: (editChars e' ++ tailChars l') from rfl]
    rw [List.append_assoc, List.cons_append, ih e']

theorem editChars_length_pos (e : Edit) : 1 ≤ (editChars e).length := by
  unfold editChars
  simp

theorem tailChars_length_gt (l : List Edit) : l.length < (tailChars l).length := by
  induction l with
  | nil => simp [tailChars]
  | cons e l' ih =>
    simp only [tailChars, List.length_cons, List.length_append]
    have he := editChars_length_pos e
    omega

theorem parseEditsAux_round (l : List Edit) : ∀ (e : Edit) (fuel : Nat),
    (∀ x ∈ e :: l, serializableEdit x = true) → l.length < fuel →
    parseEditsAux fuel (editChars e ++ tailChars l) = some (e :: l) := by
  induction l with
  | nil =>
    intro e fuel hser hfuel
    match fuel, hfuel with
    | fuel' + 1, _ =>
      unfold parseEditsAux
      rw [parseOneEdit_round e (tailChars []) (hser e (List.mem_cons_self e []))]
      simp only [Option.some_bind]
      simp [tailChars]
  | cons e' l' ih =>
    intro e fuel hser hfuel
    match fuel, hfuel with
    | fuel' + 1, hf =>
      unfold parseEditsAux
      rw [show tailChars (e' :: l') = ',' :: (editChars e' ++ tailChars l') from rfl]
      rw [parseOneEdit_round e _ (hser e (List.mem_cons_self e (e' :: l')))]
      simp only [Option.some_bind]
      rw [ih e' fuel'
        (fun x hx => hser x (List.mem_cons_of_mem e hx))
        (Nat.lt_of_succ_lt_succ hf)]
      simp

theorem parseEdits_editsJson (l : List Edit) (hser : ∀ x ∈ l, serializableEdit x = true) :
    parseEdits (editsJson l) = some l := by
  cases l with
  | nil => rfl
  | cons e l' =>
    unfold parseEdits editsJson
    rw [show (String.mk ('[' ::
        (List.intercalate [','] ((e :: l').map editChars) ++ [']']))).data =
        '[' :: (List.intercalate [','] ((e :: l').map editChars) ++ [']']) from rfl]
    show (if ('[' : Char) = '[' then
        if (List.intercalate [','] ((e :: l').map editChars) ++ [']']) = [']'] then some []
        else parseEditsAux
          (List.intercalate [','] ((e :: l').map editChars) ++ [']']).length
          (List.intercalate [','] ((e :: l').map editChars) ++ [']'])
      else none) = some (e :: l')
    rw [if_pos rfl, intercalate_editChars e l']
    have h1 := editChars_length_pos e
    have h2 := tailChars_length_gt l'
    have hne : editChars e ++ tailChars l' ≠ [']'] := by
      intro hh
      have hlen := congrArg List.length hh
      simp only [List.length_append, List.length_cons, List.length_nil] at hlen
      omega
    rw [if_neg hne]
    apply parseEditsAux_round l' e _ hser
    simp only [List.length_append]
    omega

/-- C6.  On a grid-cell update whose cell key is not the count column
and whose value actually changed, and on a value-change event from an
edit row, the string passed to the saveEdits callback is a
JSON-serialized array that parses back to the component's current edit
log with exactly one new record appended at the end; the pre-existing
records are unchanged and keep their order.  The serializability
hypotheses restrict values to control-free strings and integer numbers,
the shapes this component produces and stores. -/
theorem refine_C6
    (edits : List Edit) (data : GridUpdate) (now : Int)
    (selCol : String) (cf2 ct2 : JsVal) (now2 : Int)
    (hser : ∀ e ∈ edits, serializableEdit e = true)
    (hkey : data.cellKey ≠ "count")
    (hne : jsEq (objGet data.fromRowData data.cellKey) (objGet data.updated data.cellKey)
      = false)
    (hcol : serializableString data.cellKey = true)
    (hfv : serializableVal (objGet data.fromRowData data.cellKey) = true)
    (htv : serializableVal (objGet data.updated data.cellKey) = true)
    (hsel : serializableString selCol = true)
    (hf2 : serializableVal cf2 = true) (ht2 : serializableVal ct2 = true) :
    (∃ s, handleGridRowsUpdated edits data now = some s ∧
      parseEdits s = some (edits ++ [⟨data.cellKey, objGet data.fromRowData data.cellKey,
        objGet data.updated data.cellKey, now⟩])) ∧
    parseEdits (handleValueChange edits selCol cf2 ct2 now2) =
      some (edits ++ [⟨selCol, cf2, ct2, now2⟩]) := by
  constructor
  · refine ⟨editsJson (edits ++ [⟨data.cellKey, objGet data.fromRowData data.cellKey,
      objGet data.updated data.cellKey, now⟩]), ?_, ?_⟩
    · simp only [handleGridRowsUpdated]
      rw [if_neg (by simpa using hkey), if_neg (by simp [hne])]
    · apply parseEdits_editsJson
      intro x hx
      rcases List.mem_append.mp hx with hx | hx
      · exact hser x hx
      · rw [List.mem_singleton.mp hx]
        simp [serializableEdit, hcol, hfv, htv]
  · unfold handleValueChange
    apply parseEdits_editsJson
    intro x hx
    rcases List.mem_append.mp hx with hx | hx
    · exact hser x hx
    · rw [List.mem_singleton.mp hx]
      simp [serializableEdit, hsel, hf2, ht2]

/-- Witness for C6 at a concrete one-record log and a concrete grid
update renaming x to y in column a. -/
theorem refine_C6_witness :
    (∃ s, handleGridRowsUpdated [⟨"a", JsVal.str "p", JsVal.str "q", 1⟩]
        ⟨"a", [("a", JsVal.str "x")], [("a", JsVal.str "y")]⟩ 5 = some s ∧
      parseEdits s = some ([⟨"a", JsVal.str "p", JsVal.str "q", 1⟩] ++
        [⟨"a", objGet [("a", JsVal.str "x")] "a", objGet [("a", JsVal.str "y")] "a", 5⟩])) ∧
    parseEdits (handleValueChange [⟨"a", JsVal.str "p", JsVal.str "q", 1⟩] "b"
        (JsVal.str "u") (JsVal.str "v") 7) =
      some ([⟨"a", JsVal.str "p", JsVal.str "q", 1⟩] ++
        [⟨"b", JsVal.str "u", JsVal.str "v", 7⟩]) :=
  refine_C6 [⟨"a", JsVal.str "p", JsVal.str "q", 1⟩]
    ⟨"a", [("a", JsVal.str "x")], [("a", JsVal.str "y")]⟩ 5 "b"
    (JsVal.str "u") (JsVal.str "v") 7
    (by decide) (by decide) (by decide) (by decide) (by decide) (by decide) (by decide)
    (by decide) (by decide)
